import Mathlib

/-!
Verification of the multi-stage news pipeline: source ingestion
(`NewsCollector`), condensation (`ArticleSummarizer`) and tone
transformation (`HumorGenerator`).  Text handled character-wise (URLs,
article bodies) is modelled as `List Char`; network and model effects are
modelled as explicit oracles (`fetch`, `parse`, generation functions)
returning `Option`/`Except` values, mirroring the `try/except` structure
of the code.
-/

/-- Character strings, modelled as lists of characters. -/
abbrev Str := List Char

/-! ### Generic string helpers (Python built-ins used by the code) -/

/-- Python `s.split(sep)` for a one-character separator: splits at every
occurrence of the separator and keeps empty fields. -/
def splitOnChar (sep : Char) : Str → List Str
  | [] => [[]]
  | c :: cs =>
    match splitOnChar sep cs with
    | [] => [[c]]
    | h :: t => if c = sep then [] :: h :: t else (c :: h) :: t

/-- Python `sep.join(parts)` for a one-character joiner. -/
def joinChar (sep : Char) (parts : List Str) : Str :=
  List.intercalate [sep] parts

/-- Python `s.rstrip("/")`: remove every trailing `'/'`. -/
def rstripSlash (s : Str) : Str :=
  (s.reverse.dropWhile (· = '/')).reverse

/-- Python `s.lstrip("/")`: remove every leading `'/'`. -/
def lstripSlash (s : Str) : Str :=
  s.dropWhile (· = '/')

/-- Python `pat in s`: substring containment. -/
def containsSeq (pat : Str) : Str → Bool
  | [] => pat.isEmpty
  | c :: cs => pat.isPrefixOf (c :: cs) || containsSeq pat cs

/-- Whitespace characters recognised by Python `str.split()`. -/
def pyIsSpace (c : Char) : Bool :=
  c = ' ' || c = '\t' || c = '\n' || c = '\r' || c = '\x0b' || c = '\x0c'

/-- Splitting at a character predicate, keeping empty fields. -/
def splitOnP (p : Char → Bool) : Str → List Str
  | [] => [[]]
  | c :: cs =>
    match splitOnP p cs with
    | [] => [[c]]
    | h :: t => if p c then [] :: h :: t else (c :: h) :: t

/-- Python `s.split()` (no argument): split at whitespace runs, dropping
empty fields. -/
def pyWords (s : Str) : List Str :=
  (splitOnP pyIsSpace s).filter (fun w => ¬ w.isEmpty)

/-- Python `" ".join(words)`. -/
def joinWords (ws : List Str) : Str :=
  List.intercalate [' '] ws

/-! ### Link Discoverer (`NewsCollector._extract_article_links`) -/

/-- Scheme-plus-host computation `"/".join(base_url.split("/")[:3])` from
`_extract_article_links`. -/
def urlDomain (base : Str) : Str :=
  joinChar '/' ((splitOnChar '/' base).take 3)

/-- Acceptance test of the link loop: the negation of
`not href or href.startswith("#") or "javascript:" in href`. -/
def acceptHref (href : Str) : Bool :=
  !(href.isEmpty || "#".toList.isPrefixOf href ||
    containsSeq "javascript:".toList href)

/-- URL absolutization from `_extract_article_links`: root-relative links
get the scheme+host of `base` prepended, links with no `http(s)://` scheme
are joined onto `base` with a single `'/'`, absolute links pass through. -/
def resolveHref (base href : Str) : Str :=
  if "/".toList.isPrefixOf href then urlDomain base ++ href
  else if !("http://".toList.isPrefixOf href ||
            "https://".toList.isPrefixOf href) then
    rstripSlash base ++ '/' :: lstripSlash href
  else href

/-- The `links` list accumulated by the main loop of
`_extract_article_links`: accepted hyperlink targets, absolutized, in
document order. -/
def discoveredLinks (hrefs : List Str) (base : Str) : List Str :=
  hrefs.filterMap fun h => if acceptHref h then some (resolveHref base h) else none

/-- One step of the dedup loop of `_extract_article_links`
(`if link not in unique_links: unique_links.append(link)`). -/
def dedupStep {α : Type} [DecidableEq α] (acc : List α) (x : α) : List α :=
  if x ∈ acc then acc else acc ++ [x]

/-- The dedup loop of `_extract_article_links`: keep the first occurrence
of every element, preserving order. -/
def dedupFirst {α : Type} [DecidableEq α] (l : List α) : List α :=
  l.foldl dedupStep []

/-- `NewsCollector._extract_article_links`, as a function of the sequence
of hyperlink targets (`href` attributes in document order) and the source
base URL. -/
def extract_article_links (hrefs : List Str) (base : Str) : List Str :=
  dedupFirst (discoveredLinks hrefs base)

/-! ### Content Extractor (`NewsCollector._extract_article_content`) -/

/-- Result of a successful `Article.download(); Article.parse()`. -/
structure ParsedArticle where
  title : Str
  text : Str
  publish_date : Option Int
  deriving DecidableEq

/-- One article record as assembled by `_extract_article_content`
(dictionary keys `title`, `text`, `url`, `source`, `date`).  Timestamps
are modelled as integer seconds. -/
structure ArticleRecord where
  title : Str
  text : Str
  url : Str
  source : Str
  date : Int
  deriving DecidableEq

/-- `NewsCollector._extract_article_content`.  The download/parse step is
an oracle `parse`; an `Except.error` models a raised
`ArticleException`/exception (caught, yielding `none`); `now` is the
clock value used for the `datetime.now()` fallback. -/
def extract_article_content (parse : Str → Except Str ParsedArticle)
    (now : Int) (url sourceName : Str) : Option ArticleRecord :=
  match parse url with
  | .error _ => none
  | .ok p =>
    if p.title.isEmpty || p.text.isEmpty then none
    else some { title := p.title, text := p.text, url := url,
                source := sourceName, date := p.publish_date.getD now }

/-! ### Source Ingestion Engine (`NewsCollector._collect_from_source`,
`NewsCollector.collect_news`) -/

/-- The extraction loop of `_collect_from_source`: one extraction attempt
per URL, failed attempts skipped.  Returns the collected records and the
number of extraction attempts. -/
def collectLoop (ex : Str → Option ArticleRecord) :
    List Str → List ArticleRecord × Nat
  | [] => ([], 0)
  | u :: us =>
    let rest := collectLoop ex us
    match ex u with
    | some a => (a :: rest.1, rest.2 + 1)
    | none => (rest.1, rest.2 + 1)

/-- `NewsCollector._collect_from_source`, with the landing-page fetch
modelled as `page : Option (List Str)` (the hyperlink targets of the
landing page, or `none` for a raised `requests.RequestException`, which
the code catches and turns into zero records).  Returns the records and
the number of content-extraction attempts. -/
def collect_from_source_run (parse : Str → Except Str ParsedArticle)
    (now : Int) (K : Nat) (page : Option (List Str))
    (baseUrl sourceName : Str) : List ArticleRecord × Nat :=
  match page with
  | none => ([], 0)
  | some hrefs =>
    let links := extract_article_links hrefs baseUrl
    collectLoop (fun u => extract_article_content parse now u sourceName)
      (links.take K)

/-- The records returned by `_collect_from_source`. -/
def collect_from_source (parse : Str → Except Str ParsedArticle)
    (now : Int) (K : Nat) (page : Option (List Str))
    (baseUrl sourceName : Str) : List ArticleRecord :=
  (collect_from_source_run parse now K page baseUrl sourceName).1

/-- A configured news source (`{"name": ..., "url": ...}`). -/
structure SourceDescriptor where
  name : Str
  url : Str
  deriving DecidableEq

/-- Seconds per day: `timedelta(days = n)` equals `n * secondsPerDay`
in the integer-seconds time model. -/
def secondsPerDay : Int := 86400

/-- The `articles_data` list of `collect_news`: every source's records,
concatenated in configuration order (`fetch` maps a source URL to its
landing page's hyperlink targets, or `none` for a fetch failure). -/
def merged_articles (fetch : Str → Option (List Str))
    (parse : Str → Except Str ParsedArticle) (now : Int) (K : Nat)
    (sources : List SourceDescriptor) : List ArticleRecord :=
  (sources.map fun s =>
    collect_from_source parse now K (fetch s.url) s.url s.name).flatten

/-- `NewsCollector.collect_news`: merge all sources' records, then keep
the records whose `date` is at least `now - N` days
(`df[df["date"] >= cutoff_date]`). -/
def collect_news (fetch : Str → Option (List Str))
    (parse : Str → Except Str ParsedArticle) (now : Int) (K : Nat)
    (N : Int) (sources : List SourceDescriptor) : List ArticleRecord :=
  (merged_articles fetch parse now K sources).filter fun a =>
    decide (now - N * secondsPerDay ≤ a.date)

/-! ### Condensation Engine (`ArticleSummarizer`) -/

/-- The generation state of `ArticleSummarizer`, fixed by `_load_model`
at construction: `primed` holds the PEGASUS path
(`_summarize_with_pegasus`), `degraded` the fallback pipeline path
(`_summarize_with_pipeline`).  Each path is an oracle whose
`Except.error` models a raised exception. -/
inductive SummarizerState where
  | primed (gen : Str → Except Str Str)
  | degraded (gen : Str → Except Str Str)

/-- The generation path chosen by `if self.model and self.tokenizer`. -/
def chosenGen : SummarizerState → (Str → Except Str Str)
  | .primed g => g
  | .degraded g => g

/-- The 1024-word input cap of `ArticleSummarizer.summarize`: texts of
more than 1024 words are replaced by the space-joined first 1024 words. -/
def truncateWords (s : Str) : Str :=
  if (pyWords s).length > 1024 then joinWords ((pyWords s).take 1024) else s

/-- `ArticleSummarizer.summarize`: empty input yields empty output; the
input is word-truncated; a raised generation error is caught and replaced
by the first 500 characters of the truncated input plus `"..."`. -/
def summarize (st : SummarizerState) (text : Str) : Str :=
  if text.isEmpty then []
  else
    let t := truncateWords text
    match chosenGen st t with
    | .ok s => s
    | .error _ => t.take 500 ++ "...".toList

/-! ### Tone Transformer (`HumorGenerator`) -/

/-- Python truthiness of `openai.api_key` (`None` or the empty string are
falsy). -/
def pyTruthyStr (s : Option String) : Bool :=
  match s with
  | none => false
  | some v => v != ""

/-- `HumorGenerator.add_humor`: with no (truthy) API key, return
`f"{title}\n\n{summary}"`; otherwise issue the chat request (an oracle
whose `Except.error` models any raised exception: network error, API
error, malformed response) and return the stripped response content, or
the same pass-through string when the request raises. -/
def add_humor (apiKey : Option String)
    (request : String → String → Except String String)
    (title summary : String) : String :=
  if !pyTruthyStr apiKey then title ++ "\n\n" ++ summary
  else
    match request title summary with
    | .ok content => content.trim
    | .error _ => title ++ "\n\n" ++ summary

/-- An article dictionary as seen by `batch_add_humor`: `none` models an
absent key. -/
structure RawArticle where
  title : Option String
  summary : Option String
  humorous_content : Option String
  text : Option String
  url : Option String
  deriving DecidableEq

/-- The per-record step of `batch_add_humor`: records with both a
`title` and a `summary` key get a `humorous_content` key; all other
records are left untouched. -/
def humorStep (apiKey : Option String)
    (request : String → String → Except String String)
    (a : RawArticle) : RawArticle :=
  match a.title, a.summary with
  | some t, some s =>
    { a with humorous_content := some (add_humor apiKey request t s) }
  | _, _ => a

/-- `HumorGenerator.batch_add_humor`: apply `humorStep` to every record,
returning the list in order. -/
def batch_add_humor (apiKey : Option String)
    (request : String → String → Except String String)
    (articles : List RawArticle) : List RawArticle :=
  articles.map (humorStep apiKey request)

/-! ### Helper lemmas: first-occurrence indices -/

/-- Position of the first occurrence of `a` in a list (the list's length
when `a` is absent). -/
def firstIdx {α : Type} [DecidableEq α] (a : α) : List α → Nat
  | [] => 0
  | b :: bs => if b = a then 0 else firstIdx a bs + 1

theorem firstIdx_of_not_mem {α : Type} [DecidableEq α] {a : α} :
    ∀ {l : List α}, a ∉ l → firstIdx a l = l.length := by
  intro l
  induction l with
  | nil => intro _; rfl
  | cons b bs ih =>
    intro h
    have hb : ¬ b = a := fun e => h (by rw [e]; exact List.mem_cons_self a bs)
    have hbs : a ∉ bs := fun m => h (List.mem_cons_of_mem _ m)
    simp [firstIdx, hb, ih hbs]

theorem firstIdx_lt_length {α : Type} [DecidableEq α] {a : α} :
    ∀ {l : List α}, a ∈ l → firstIdx a l < l.length := by
  intro l
  induction l with
  | nil => simp
  | cons b bs ih =>
    intro h
    by_cases hb : b = a
    · simp [firstIdx, hb]
    · have ha : a ∈ bs := by
        rcases List.mem_cons.mp h with h' | h'
        · exact absurd h'.symm hb
        · exact h'
      have := ih ha
      simp only [firstIdx, if_neg hb, List.length_cons]
      omega

theorem firstIdx_append_left {α : Type} [DecidableEq α] {a : α}
    {l₁ : List α} (l₂ : List α) (h : a ∈ l₁) :
    firstIdx a (l₁ ++ l₂) = firstIdx a l₁ := by
  induction l₁ with
  | nil => simp at h
  | cons b bs ih =>
    by_cases hb : b = a
    · simp [firstIdx, hb]
    · have ha : a ∈ bs := by
        rcases List.mem_cons.mp h with h' | h'
        · exact absurd h'.symm hb
        · exact h'
      simp [firstIdx, hb, ih ha]

theorem firstIdx_append_right {α : Type} [DecidableEq α] {a : α}
    {l₁ : List α} (l₂ : List α) (h : a ∉ l₁) :
    firstIdx a (l₁ ++ l₂) = l₁.length + firstIdx a l₂ := by
  induction l₁ with
  | nil => simp
  | cons b bs ih =>
    have hb : ¬ b = a := fun e => h (by rw [e]; exact List.mem_cons_self a bs)
    have hbs : a ∉ bs := fun m => h (List.mem_cons_of_mem _ m)
    show firstIdx a (b :: (bs ++ l₂)) = (b :: bs).length + firstIdx a l₂
    rw [firstIdx, if_neg hb, ih hbs, List.length_cons]
    omega

/-! ### Helper lemmas: the dedup loop -/

theorem foldl_dedupStep_mem {α : Type} [DecidableEq α] (l : List α) :
    ∀ (acc : List α) (a : α),
      a ∈ l.foldl dedupStep acc ↔ a ∈ acc ∨ a ∈ l := by
  induction l with
  | nil => simp
  | cons x xs ih =>
    intro acc a
    simp only [List.foldl_cons]
    rw [ih]
    by_cases hx : x ∈ acc
    · simp only [dedupStep, if_pos hx, List.mem_cons]
      constructor
      · rintro (h | h)
        · exact Or.inl h
        · exact Or.inr (Or.inr h)
      · rintro (h | h | h)
        · exact Or.inl h
        · exact Or.inl (by rw [h]; exact hx)
        · exact Or.inr h
    · simp only [dedupStep, if_neg hx, List.mem_append, List.mem_cons,
        List.mem_singleton]
      tauto

theorem mem_dedupFirst {α : Type} [DecidableEq α] {a : α} {l : List α} :
    a ∈ dedupFirst l ↔ a ∈ l := by
  rw [dedupFirst, foldl_dedupStep_mem]
  simp

theorem foldl_dedupStep_nodup {α : Type} [DecidableEq α] (l : List α) :
    ∀ acc : List α, acc.Nodup → (l.foldl dedupStep acc).Nodup := by
  induction l with
  | nil => intro acc h; simpa
  | cons x xs ih =>
    intro acc h
    simp only [List.foldl_cons]
    apply ih
    by_cases hx : x ∈ acc
    · simpa [dedupStep, hx]
    · rw [dedupStep, if_neg hx]
      exact h.append (List.nodup_singleton x) (List.disjoint_singleton.mpr hx)

theorem dedupFirst_nodup {α : Type} [DecidableEq α] (l : List α) :
    (dedupFirst l).Nodup :=
  foldl_dedupStep_nodup l [] List.nodup_nil

theorem dedupFirst_append_elem {α : Type} [DecidableEq α] (l : List α)
    (x : α) : dedupFirst (l ++ [x]) = dedupStep (dedupFirst l) x := by
  simp [dedupFirst, List.foldl_append]

theorem dedupFirst_ord_aux {α : Type} [DecidableEq α] (suf : List α) :
    ∀ pre : List α,
      (dedupFirst pre).Pairwise (fun a b => firstIdx a pre < firstIdx b pre) →
      (dedupFirst (pre ++ suf)).Pairwise
        (fun a b => firstIdx a (pre ++ suf) < firstIdx b (pre ++ suf)) := by
  induction suf with
  | nil => intro pre h; simpa using h
  | cons x xs ih =>
    intro pre h
    have hsplit : pre ++ x :: xs = (pre ++ [x]) ++ xs := by simp
    rw [hsplit]
    apply ih
    rw [dedupFirst_append_elem]
    by_cases hx : x ∈ dedupFirst pre
    · rw [dedupStep, if_pos hx]
      refine h.imp_of_mem ?_
      intro a b ha hb hab
      have ha' : a ∈ pre := mem_dedupFirst.mp ha
      have hb' : b ∈ pre := mem_dedupFirst.mp hb
      rw [firstIdx_append_left _ ha', firstIdx_append_left _ hb']
      exact hab
    · rw [dedupStep, if_neg hx]
      rw [List.pairwise_append]
      refine ⟨?_, List.pairwise_singleton _ _, ?_⟩
      · refine h.imp_of_mem ?_
        intro a b ha hb hab
        have ha' : a ∈ pre := mem_dedupFirst.mp ha
        have hb' : b ∈ pre := mem_dedupFirst.mp hb
        rw [firstIdx_append_left _ ha', firstIdx_append_left _ hb']
        exact hab
      · intro a ha b hb
        have hbx : b = x := by simpa using hb
        subst hbx
        have ha' : a ∈ pre := mem_dedupFirst.mp ha
        have hxp : b ∉ pre := fun m => hx (mem_dedupFirst.mpr m)
        rw [firstIdx_append_left _ ha', firstIdx_append_right _ hxp]
        have hlt : firstIdx a pre < pre.length := firstIdx_lt_length ha'
        simp only [firstIdx, if_pos rfl]
        omega

theorem dedupFirst_pairwise_firstIdx {α : Type} [DecidableEq α]
    (l : List α) :
    (dedupFirst l).Pairwise (fun a b => firstIdx a l < firstIdx b l) := by
  have h := dedupFirst_ord_aux l []
    (by simp [dedupFirst, List.foldl_nil, List.Pairwise.nil])
  simpa using h

/-! ### Helper lemmas: extraction and the per-source loop -/

theorem extract_article_links_single (base href : Str) :
    extract_article_links [href] base =
      if acceptHref href then [resolveHref base href] else [] := by
  by_cases h : acceptHref href <;>
    simp [extract_article_links, discoveredLinks, dedupFirst, dedupStep, h]

theorem extract_article_content_url (parse : Str → Except Str ParsedArticle)
    (now : Int) (url sourceName : Str) (a : ArticleRecord)
    (h : extract_article_content parse now url sourceName = some a) :
    a.url = url := by
  simp only [extract_article_content] at h
  split at h
  · exact absurd h (by simp)
  · split at h
    · exact absurd h (by simp)
    · have h' := Option.some.inj h
      rw [← h']

theorem collectLoop_snd (ex : Str → Option ArticleRecord) :
    ∀ l : List Str, (collectLoop ex l).2 = l.length := by
  intro l
  induction l with
  | nil => rfl
  | cons u us ih => cases hx : ex u <;> simp [collectLoop, hx, ih]

theorem collectLoop_urls_sublist (ex : Str → Option ArticleRecord)
    (hex : ∀ u a, ex u = some a → a.url = u) :
    ∀ l : List Str, ((collectLoop ex l).1.map ArticleRecord.url).Sublist l := by
  intro l
  induction l with
  | nil => simp [collectLoop]
  | cons u us ih =>
    cases hx : ex u with
    | none =>
      simp only [collectLoop, hx]
      exact ih.cons u
    | some a =>
      simp only [collectLoop, hx, List.map_cons]
      rw [hex u a hx]
      exact ih.cons₂ u

/-! ### Helper lemmas: splitting base URLs at slashes -/

theorem splitOnChar_ne_nil (sep : Char) (s : Str) :
    splitOnChar sep s ≠ [] := by
  cases s with
  | nil => simp [splitOnChar]
  | cons c cs =>
    simp only [splitOnChar]
    cases h : splitOnChar sep cs with
    | nil => simp
    | cons a t => by_cases hc : c = sep <;> simp [hc]

theorem splitOnChar_cons_sep (sep : Char) (r : Str) :
    splitOnChar sep (sep :: r) = [] :: splitOnChar sep r := by
  cases h : splitOnChar sep r with
  | nil => exact absurd h (splitOnChar_ne_nil sep r)
  | cons a t => simp [splitOnChar, h]

theorem splitOnChar_append (sep : Char) (s r : Str) (hs : sep ∉ s) :
    splitOnChar sep (s ++ sep :: r) = s :: splitOnChar sep r := by
  induction s with
  | nil => simpa using splitOnChar_cons_sep sep r
  | cons c cs ih =>
    have hc : ¬ c = sep := fun e => hs (by rw [← e]; exact List.mem_cons_self c cs)
    have hcs : sep ∉ cs := fun m => hs (List.mem_cons_of_mem _ m)
    rw [List.cons_append, splitOnChar, ih hcs]
    simp [hc]

theorem joinChar_triple (sep : Char) (a b c : Str) :
    joinChar sep [a, b, c] = a ++ sep :: (b ++ sep :: c) := by
  simp [joinChar, List.intercalate, List.intersperse]

theorem urlDomain_scheme_host (scheme host rest : Str)
    (hs : '/' ∉ scheme) (hh : '/' ∉ host) :
    urlDomain (scheme ++ ':' :: '/' :: '/' :: (host ++ '/' :: rest)) =
      scheme ++ ':' :: '/' :: '/' :: host := by
  have h1 : '/' ∉ scheme ++ [':'] := by
    intro hm
    rcases List.mem_append.mp hm with hm | hm
    · exact hs hm
    · simp at hm
  have e1 : scheme ++ ':' :: '/' :: '/' :: (host ++ '/' :: rest)
      = (scheme ++ [':']) ++ '/' :: ('/' :: (host ++ '/' :: rest)) := by simp
  rw [urlDomain, e1, splitOnChar_append _ _ _ h1, splitOnChar_cons_sep,
      splitOnChar_append _ _ _ hh]
  rw [List.take, List.take, List.take, List.take_zero, joinChar_triple]
  simp

/-- Unfolding of the acceptance test into its three reject conditions. -/
theorem acceptHref_iff (href : Str) :
    acceptHref href = true ↔
      ¬(href = [] ∨ ("#".toList.isPrefixOf href) = true ∨
        (containsSeq "javascript:".toList href) = true) := by
  constructor
  · intro h hbad
    rcases hbad with h0 | h0 | h0
    · rw [acceptHref, h0] at h
      simp [List.isEmpty] at h
    · rw [acceptHref, h0] at h
      simp at h
    · rw [acceptHref, h0] at h
      simp at h
  · intro hgood
    rw [acceptHref]
    have h1 : href.isEmpty = false := by
      cases he : href.isEmpty
      · rfl
      · exact absurd (Or.inl (List.isEmpty_iff.mp he)) hgood
    have h2 : ("#".toList.isPrefixOf href) = false := by
      cases he : "#".toList.isPrefixOf href
      · rfl
      · exact absurd (Or.inr (Or.inl he)) hgood
    have h3 : (containsSeq "javascript:".toList href) = false := by
      cases he : containsSeq "javascript:".toList href
      · rfl
      · exact absurd (Or.inr (Or.inr he)) hgood
    rw [h1, h2, h3]
    rfl

/-- Links with an `http(s)://` scheme do not start with a slash. -/
theorem slash_not_prefix_of_scheme (href : Str)
    (h : ("http://".toList.isPrefixOf href) = true ∨
         ("https://".toList.isPrefixOf href) = true) :
    ("/".toList.isPrefixOf href) = false := by
  cases href with
  | nil => rcases h with h | h <;> simp [List.isPrefixOf] at h
  | cons c t =>
    have hc : c = 'h' := by
      rcases h with h | h <;>
        · simp only [List.isPrefixOf, Bool.and_eq_true, beq_iff_eq] at h
          exact h.1.symm
    subst hc
    simp [List.isPrefixOf]

/-- The root-relative branch of the absolutization. -/
theorem resolveHref_root (base href : Str)
    (hp : ("/".toList.isPrefixOf href) = true) :
    resolveHref base href = urlDomain base ++ href := by
  unfold resolveHref
  rw [if_pos hp]

/-- The fully-relative branch of the absolutization. -/
theorem resolveHref_rel (base href : Str)
    (hp : ("/".toList.isPrefixOf href) = false)
    (h1 : ("http://".toList.isPrefixOf href) = false)
    (h2 : ("https://".toList.isPrefixOf href) = false) :
    resolveHref base href = rstripSlash base ++ '/' :: lstripSlash href := by
  unfold resolveHref
  rw [if_neg (by rw [hp]; decide), if_pos (by rw [h1, h2]; rfl)]

/-- The pass-through branch of the absolutization. -/
theorem resolveHref_abs (base href : Str)
    (h : ("http://".toList.isPrefixOf href) = true ∨
         ("https://".toList.isPrefixOf href) = true) :
    resolveHref base href = href := by
  have hp := slash_not_prefix_of_scheme href h
  have hcond : ¬ ((!("http://".toList.isPrefixOf href ||
      "https://".toList.isPrefixOf href)) = true) := by
    rcases h with h1 | h1
    · rw [h1, Bool.true_or]; decide
    · rw [h1, Bool.or_true]; decide
  unfold resolveHref
  rw [if_neg (by rw [hp]; decide), if_neg hcond]

/-! ### Claim theorems -/

/-- C4: the Link Discoverer's output contains each distinct absolute URL
exactly once — it has no duplicates, it contains exactly the accepted,
absolutized hyperlink targets (so duplicates by exact string or by any
variants resolving to the same absolute URL collapse to one entry), and
its entries are ordered by the position of their first appearance among
the discovered links, so the earliest occurrence is the one kept. -/
theorem extract_article_links_first_seen_dedup (hrefs : List Str)
    (base : Str) :
    (extract_article_links hrefs base).Nodup ∧
    (∀ u, u ∈ extract_article_links hrefs base ↔
      u ∈ discoveredLinks hrefs base) ∧
    (extract_article_links hrefs base).Pairwise
      (fun a b => firstIdx a (discoveredLinks hrefs base) <
                  firstIdx b (discoveredLinks hrefs base)) :=
  ⟨dedupFirst_nodup _, fun _ => mem_dedupFirst,
   dedupFirst_pairwise_firstIdx _⟩

/-- A concrete absolute URL that merely mentions `javascript:` inside its
query string. -/
def jsQueryHref : Str := "https://news.example/story?next=javascript:void(0)".toList

/-- C8 is refuted as stated: this link is non-empty, not an in-page
fragment, not a script pseudo-URL (it does not start with
`javascript:`), and is an already-absolute `https://` link, so by the
claim it must be accepted and pass through unchanged; the code rejects
it because `"javascript:" in href` tests substring containment. -/
theorem link_reject_substring_counterexample :
    jsQueryHref ≠ [] ∧
    ("#".toList.isPrefixOf jsQueryHref) = false ∧
    ("javascript:".toList.isPrefixOf jsQueryHref) = false ∧
    ("https://".toList.isPrefixOf jsQueryHref) = true ∧
    extract_article_links [jsQueryHref] "https://news.example/".toList = [] := by
  decide

/-- C8 (amended): a hyperlink target is rejected iff it is empty, starts
with `#`, or contains the substring `"javascript:"` anywhere (not only as
its scheme).  Accepted root-relative links are output as the first three
slash-separated segments of `base_url` — its scheme+host for a
well-formed base URL, per the last conjunct — concatenated with the
link; accepted links with no scheme and no leading slash are joined onto
`base_url` with a single `'/'`; accepted absolute links pass through
unchanged. -/
theorem extract_article_links_policy (base href : Str) :
    (extract_article_links [href] base ≠ [] ↔
      ¬(href = [] ∨ ("#".toList.isPrefixOf href) = true ∨
        (containsSeq "javascript:".toList href) = true)) ∧
    (acceptHref href = true → ("/".toList.isPrefixOf href) = true →
      extract_article_links [href] base = [urlDomain base ++ href]) ∧
    (acceptHref href = true → ("/".toList.isPrefixOf href) = false →
      ("http://".toList.isPrefixOf href) = false →
      ("https://".toList.isPrefixOf href) = false →
      extract_article_links [href] base =
        [rstripSlash base ++ '/' :: lstripSlash href]) ∧
    (acceptHref href = true →
      (("http://".toList.isPrefixOf href) = true ∨
       ("https://".toList.isPrefixOf href) = true) →
      extract_article_links [href] base = [href]) ∧
    (∀ scheme host rest : Str, '/' ∉ scheme → '/' ∉ host →
      urlDomain (scheme ++ ':' :: '/' :: '/' :: (host ++ '/' :: rest)) =
        scheme ++ ':' :: '/' :: '/' :: host) := by
  refine ⟨?_, ?_, ?_, ?_, fun s h r hs hh => urlDomain_scheme_host s h r hs hh⟩
  · rw [extract_article_links_single]
    by_cases h : acceptHref href
    · simp only [if_pos h]
      constructor
      · intro _
        exact (acceptHref_iff href).mp h
      · intro _
        simp
    · simp only [if_neg h]
      constructor
      · intro hne
        exact absurd rfl hne
      · intro hgood
        exact absurd ((acceptHref_iff href).mpr hgood) h
  · intro hacc hp
    rw [extract_article_links_single, if_pos hacc, resolveHref_root base href hp]
  · intro hacc hp h1 h2
    rw [extract_article_links_single, if_pos hacc,
      resolveHref_rel base href hp h1 h2]
  · intro hacc habs
    rw [extract_article_links_single, if_pos hacc,
      resolveHref_abs base href habs]

/-- Witness for the amended C8 at concrete links: a root-relative, a
fully relative, an absolute, and a rejected link, against the base URL
`https://h.example/sec/`. -/
theorem extract_article_links_policy_witness :
    extract_article_links ["/a".toList] "https://h.example/sec/".toList
      = [urlDomain "https://h.example/sec/".toList ++ "/a".toList] ∧
    extract_article_links ["a/b".toList] "https://h.example/sec/".toList
      = [rstripSlash "https://h.example/sec/".toList ++
          '/' :: lstripSlash "a/b".toList] ∧
    extract_article_links ["https://x.example/p".toList]
        "https://h.example/sec/".toList = ["https://x.example/p".toList] ∧
    ¬ (extract_article_links ["#top".toList]
        "https://h.example/sec/".toList ≠ []) :=
  ⟨(extract_article_links_policy "https://h.example/sec/".toList
      "/a".toList).2.1 (by decide) (by decide),
   (extract_article_links_policy "https://h.example/sec/".toList
      "a/b".toList).2.2.1 (by decide) (by decide) (by decide) (by decide),
   (extract_article_links_policy "https://h.example/sec/".toList
      "https://x.example/p".toList).2.2.2.1 (by decide) (Or.inr (by decide)),
   fun h =>
     ((extract_article_links_policy "https://h.example/sec/".toList
        "#top".toList).1.mp h) (Or.inr (Or.inl (by decide)))⟩

/-- C10: a protocol-relative link (leading `//`) is treated as
root-relative: the output is the scheme+host of `base_url` concatenated
with the whole link, never a resolution against the host named in the
link. -/
theorem protocol_relative_resolution (base href : Str)
    (hp : ("//".toList.isPrefixOf href) = true)
    (ha : acceptHref href = true) :
    extract_article_links [href] base = [urlDomain base ++ href] := by
  have hp1 : ("/".toList.isPrefixOf href) = true := by
    cases href with
    | nil => simp [List.isPrefixOf] at hp
    | cons c t =>
      simp only [List.isPrefixOf, Bool.and_eq_true, beq_iff_eq] at hp ⊢
      exact ⟨hp.1, trivial⟩
  rw [extract_article_links_single, if_pos ha, resolveHref_root base href hp1]

/-- Witness for C10: `//other-host/path` against `https://base-host/sec/`
resolves to `https://base-host//other-host/path`, not to
`https://other-host/path`. -/
theorem protocol_relative_resolution_witness :
    extract_article_links ["//other-host/path".toList]
        "https://base-host/sec/".toList
      = [urlDomain "https://base-host/sec/".toList ++
          "//other-host/path".toList] ∧
    urlDomain "https://base-host/sec/".toList ++ "//other-host/path".toList
      = "https://base-host//other-host/path".toList ∧
    urlDomain "https://base-host/sec/".toList ++ "//other-host/path".toList
      ≠ "https://other-host/path".toList :=
  ⟨protocol_relative_resolution "https://base-host/sec/".toList
      "//other-host/path".toList (by decide) (by decide),
   by decide, by decide⟩

/-- Two sources whose landing pages both expose the same article URL. -/
def dupSources : List SourceDescriptor :=
  [⟨"Source One".toList, "https://one.example/".toList⟩,
   ⟨"Source Two".toList, "https://two.example/".toList⟩]

/-- Fetch oracle: every landing page links the same shared article. -/
def dupFetch : Str → Option (List Str) :=
  fun _ => some ["https://shared.example/a".toList]

/-- Parse oracle: every article downloads and parses successfully. -/
def dupParse : Str → Except Str ParsedArticle :=
  fun _ => .ok ⟨"T".toList, "B".toList, some 1000⟩

/-- C1 is refuted as stated: when two sources discover the same URL,
`collect_news` keeps both records — it performs no cross-source `url`
dedup — so the batch's `url` values are not pairwise distinct. -/
theorem collect_news_dup_url_counterexample :
    ¬ ((collect_news dupFetch dupParse 1000 5 3 dupSources).map
        ArticleRecord.url).Nodup := by
  decide

/-- C1 (amended): within one source's contribution the `url` values are
pairwise distinct (the link dedup plus the fact that each record's `url`
is the link it was extracted from guarantee it); `collect_news` itself
adds no cross-source dedup, so equal URLs from different sources all
survive (see the counterexample). -/
theorem collect_from_source_urls_nodup
    (parse : Str → Except Str ParsedArticle) (now : Int) (K : Nat)
    (page : Option (List Str)) (baseUrl sourceName : Str) :
    ((collect_from_source parse now K page baseUrl sourceName).map
      ArticleRecord.url).Nodup := by
  cases page with
  | none => simp [collect_from_source, collect_from_source_run]
  | some hrefs =>
    have hsub := collectLoop_urls_sublist
      (fun u => extract_article_content parse now u sourceName)
      (fun u a h => extract_article_content_url parse now u sourceName a h)
      ((extract_article_links hrefs baseUrl).take K)
    have hnodup : ((extract_article_links hrefs baseUrl).take K).Nodup :=
      List.Nodup.sublist (List.take_sublist K _) (dedupFirst_nodup _)
    exact List.Nodup.sublist hsub hnodup

/-- C5: when the Link Discoverer yields more than `K` candidate links for
a source, the candidate list is truncated to its first `K` links and
exactly `K` content-extraction attempts are made. -/
theorem collect_from_source_cap_attempts
    (parse : Str → Except Str ParsedArticle) (now : Int) (K : Nat)
    (hrefs : List Str) (baseUrl sourceName : Str)
    (h : K < (extract_article_links hrefs baseUrl).length) :
    (collect_from_source_run parse now K (some hrefs)
      baseUrl sourceName).2 = K := by
  simp only [collect_from_source_run]
  rw [collectLoop_snd, List.length_take]
  omega

/-- Landing page with three distinct candidate links. -/
def capHrefs : List Str :=
  ["https://cap.example/1".toList, "https://cap.example/2".toList,
   "https://cap.example/3".toList]

/-- Parse oracle whose every download raises (every attempt fails). -/
def capParse : Str → Except Str ParsedArticle := fun _ => .error "down".toList

/-- Witness for C5: three candidate links, `K = 2`, exactly two
extraction attempts. -/
theorem collect_from_source_cap_attempts_witness :
    2 < (extract_article_links capHrefs "https://cap.example".toList).length ∧
    (collect_from_source_run capParse 0 2 (some capHrefs)
      "https://cap.example".toList "Cap".toList).2 = 2 :=
  ⟨by decide,
   collect_from_source_cap_attempts capParse 0 2 capHrefs
     "https://cap.example".toList "Cap".toList (by decide)⟩

/-- C6: the recency filter keeps a merged record iff its date is at
least `now` minus `N` days; in particular a record dated exactly `N + 1`
days ago is dropped and one dated exactly `N - 1` days ago is kept. -/
theorem collect_news_recency_filter (fetch : Str → Option (List Str))
    (parse : Str → Except Str ParsedArticle) (now : Int) (K : Nat)
    (N : Int) (sources : List SourceDescriptor) :
    (∀ a, a ∈ collect_news fetch parse now K N sources ↔
      a ∈ merged_articles fetch parse now K sources ∧
      now - N * secondsPerDay ≤ a.date) ∧
    (∀ a, a ∈ merged_articles fetch parse now K sources →
      a.date = now - (N + 1) * secondsPerDay →
      a ∉ collect_news fetch parse now K N sources) ∧
    (∀ a, a ∈ merged_articles fetch parse now K sources →
      a.date = now - (N - 1) * secondsPerDay →
      a ∈ collect_news fetch parse now K N sources) := by
  refine ⟨?_, ?_, ?_⟩
  · intro a
    simp [collect_news, List.mem_filter]
  · intro a _ hd hmem
    have hle := (List.mem_filter.mp hmem).2
    rw [hd] at hle
    simp only [decide_eq_true_eq] at hle
    unfold secondsPerDay at hle
    omega
  · intro a hm hd
    refine List.mem_filter.mpr ⟨hm, ?_⟩
    rw [hd]
    simp only [decide_eq_true_eq]
    unfold secondsPerDay
    omega

/-- One source for the recency witness. -/
def recSources : List SourceDescriptor :=
  [⟨"Rec".toList, "https://rec.example/".toList⟩]

/-- Landing page with one four-day-old and one two-day-old article. -/
def recFetch : Str → Option (List Str) :=
  fun _ => some ["https://rec.example/old".toList,
                 "https://rec.example/new".toList]

/-- Parse oracle dating the two articles four and two days before
`now = 1000000`. -/
def recParse : Str → Except Str ParsedArticle := fun u =>
  if u = "https://rec.example/old".toList then
    .ok ⟨"Old".toList, "B".toList, some (1000000 - 4 * 86400)⟩
  else
    .ok ⟨"New".toList, "B".toList, some (1000000 - 2 * 86400)⟩

/-- The four-day-old record (with `lookback_days = 3`, `N + 1` days). -/
def recOld : ArticleRecord :=
  ⟨"Old".toList, "B".toList, "https://rec.example/old".toList,
   "Rec".toList, 1000000 - 4 * 86400⟩

/-- The two-day-old record (with `lookback_days = 3`, `N - 1` days). -/
def recNew : ArticleRecord :=
  ⟨"New".toList, "B".toList, "https://rec.example/new".toList,
   "Rec".toList, 1000000 - 2 * 86400⟩

/-- Witness for C6 with `lookback_days = 3`: the record dated four days
ago is excluded, the one dated two days ago is included. -/
theorem collect_news_recency_filter_witness :
    recOld ∉ collect_news recFetch recParse 1000000 5 3 recSources ∧
    recNew ∈ collect_news recFetch recParse 1000000 5 3 recSources :=
  ⟨(collect_news_recency_filter recFetch recParse 1000000 5 3
      recSources).2.1 recOld (by decide) (by decide),
   (collect_news_recency_filter recFetch recParse 1000000 5 3
      recSources).2.2 recNew (by decide) (by decide)⟩

/-- C7: the Content Extractor returns nothing exactly when the
download/parse raises or the parsed title or body text is empty; on
success it returns a record with non-empty title and text, the requested
URL and source name, and a `date` equal to the extracted publish date
when present and to the extraction-time clock otherwise (so `date` is
always populated).  It never raises: it is a total function into
`Option`. -/
theorem extract_article_content_contract
    (parse : Str → Except Str ParsedArticle) (now : Int)
    (url sourceName : Str) :
    (extract_article_content parse now url sourceName = none ↔
      (∃ e, parse url = .error e) ∨
      (∃ p, parse url = .ok p ∧ (p.title = [] ∨ p.text = []))) ∧
    (∀ a, extract_article_content parse now url sourceName = some a →
      a.title ≠ [] ∧ a.text ≠ [] ∧ a.url = url ∧ a.source = sourceName ∧
      ∃ p, parse url = .ok p ∧ a.title = p.title ∧ a.text = p.text ∧
        a.date = p.publish_date.getD now) := by
  cases hp : parse url with
  | error e =>
    refine ⟨?_, ?_⟩
    · simp only [extract_article_content, hp]
      exact iff_of_true trivial (Or.inl ⟨e, rfl⟩)
    · intro a ha
      simp [extract_article_content, hp] at ha
  | ok p =>
    by_cases ht : (p.title.isEmpty || p.text.isEmpty) = true
    · have hor : p.title = [] ∨ p.text = [] := by
        rcases Bool.or_eq_true_iff.mp ht with h | h
        · exact Or.inl (List.isEmpty_iff.mp h)
        · exact Or.inr (List.isEmpty_iff.mp h)
      refine ⟨?_, ?_⟩
      · simp only [extract_article_content, hp, if_pos ht]
        exact iff_of_true trivial (Or.inr ⟨p, rfl, hor⟩)
      · intro a ha
        simp only [extract_article_content, hp, if_pos ht] at ha
        exact absurd ha (by simp)
    · have hcl : p.title.isEmpty = false ∧ p.text.isEmpty = false := by
        cases h1 : p.title.isEmpty <;> cases h2 : p.text.isEmpty <;>
          simp [h1, h2] at ht ⊢
      have ht1 : p.title ≠ [] := by
        intro e
        rw [e] at hcl
        simp [List.isEmpty] at hcl
      have ht2 : p.text ≠ [] := by
        intro e
        rw [e] at hcl
        simp [List.isEmpty] at hcl
      refine ⟨?_, ?_⟩
      · simp only [extract_article_content, hp, if_neg ht]
        constructor
        · intro h
          exact absurd h (by simp)
        · rintro (⟨e, he⟩ | ⟨q, hq, hor⟩)
          · cases he
          · have hqp : p = q := Except.ok.inj hq
            rcases hor with h | h
            · exact absurd (hqp ▸ h) ht1
            · exact absurd (hqp ▸ h) ht2
      · intro a ha
        simp only [extract_article_content, hp, if_neg ht] at ha
        have h' := Option.some.inj ha
        rw [← h']
        exact ⟨ht1, ht2, rfl, rfl, p, rfl, rfl, rfl, rfl⟩

/-- Parse oracle for the C7 witness: parsing succeeds with no publish
date. -/
def cParse : Str → Except Str ParsedArticle :=
  fun _ => .ok ⟨"T".toList, "B".toList, none⟩

/-- The record the C7 witness extraction produces: the missing publish
date falls back to the clock value `77`. -/
def cRec : ArticleRecord :=
  ⟨"T".toList, "B".toList, "https://w.example/a".toList, "W".toList, 77⟩

/-- Witness for C7 at a successful extraction with no publish date. -/
theorem extract_article_content_contract_witness :
    cRec.title ≠ [] ∧ cRec.text ≠ [] ∧
    cRec.url = "https://w.example/a".toList ∧ cRec.source = "W".toList ∧
    ∃ p, cParse "https://w.example/a".toList = .ok p ∧
      cRec.title = p.title ∧ cRec.text = p.text ∧
      cRec.date = p.publish_date.getD 77 :=
  (extract_article_content_contract cParse 77 "https://w.example/a".toList
    "W".toList).2 cRec rfl

/-- C2: whenever the chosen generation path (primed model or fallback
pipeline) raises on the word-truncated input, `summarize` does not
propagate the exception: it returns the first 500 characters of the
input as it stood after the 1024-word truncation, followed by the
three-character ellipsis marker `"..."`. -/
theorem summarize_generation_fallback (st : SummarizerState) (text : Str)
    (e : Str) (h1 : text ≠ [])
    (h2 : chosenGen st (truncateWords text) = .error e) :
    summarize st text = (truncateWords text).take 500 ++ "...".toList := by
  have hne : text.isEmpty = false := by
    cases he : text.isEmpty
    · rfl
    · exact absurd (List.isEmpty_iff.mp he) h1
  rw [summarize, hne]
  simp only [Bool.false_eq_true, if_false, h2]

/-- A primed-state summarizer whose generation path always raises. -/
def failSt : SummarizerState := .primed (fun _ => .error "boom".toList)

/-- Witness for C2 on a short input (no truncation, shorter than 500
characters): the whole input plus `"..."` comes back. -/
theorem summarize_generation_fallback_witness :
    summarize failSt "hello world".toList =
      (truncateWords "hello world".toList).take 500 ++ "...".toList ∧
    (truncateWords "hello world".toList).take 500 ++ "...".toList =
      "hello world...".toList :=
  ⟨summarize_generation_fallback failSt "hello world".toList "boom".toList
      (by decide) rfl,
   by decide⟩

/-- C3: with no (truthy) API credential `add_humor` returns exactly
`title ++ "\n\n" ++ summary` (concretely `"T\n\nS"` for `"T"`, `"S"`),
and the same pass-through value is returned whenever the generative
request raises for any reason; being a total function, it never
raises. -/
theorem add_humor_pass_through :
    (∀ (key : Option String) req (t s : String), pyTruthyStr key = false →
      add_humor key req t s = t ++ "\n\n" ++ s) ∧
    (∀ req, add_humor none req "T" "S" = "T\n\nS") ∧
    (∀ (key : Option String) req (t s e : String), req t s = .error e →
      add_humor key req t s = t ++ "\n\n" ++ s) := by
  refine ⟨?_, ?_, ?_⟩
  · intro key req t s hk
    rw [add_humor, hk]
    rfl
  · intro req
    rfl
  · intro key req t s e hreq
    rw [add_humor]
    cases hk : pyTruthyStr key
    · rfl
    · simp only [Bool.not_true, Bool.false_eq_true, if_false, hreq]

/-- A request oracle that always raises. -/
def failReq : String → String → Except String String :=
  fun _ _ => .error "api down"

/-- Witness for C3: pass-through with no key and pass-through on a
raised request with a key configured. -/
theorem add_humor_pass_through_witness :
    add_humor none failReq "A" "B" = "A\n\nB" ∧
    add_humor (some "sk-key") failReq "A" "B" = "A\n\nB" :=
  ⟨add_humor_pass_through.1 none failReq "A" "B" rfl,
   add_humor_pass_through.2.2 (some "sk-key") failReq "A" "B" "api down" rfl⟩

/-- C9: `batch_add_humor` returns one output record per input record, in
order, and any record lacking a `title` key or a `summary` key is passed
through entirely unchanged — no `humorous_content` key is added and no
error is raised — yet it still appears in the output list at its
position. -/
theorem batch_add_humor_missing_keys (key : Option String)
    (req : String → String → Except String String)
    (articles : List RawArticle) (i : Nat) (a : RawArticle)
    (hi : articles[i]? = some a)
    (hmiss : a.title = none ∨ a.summary = none) :
    (batch_add_humor key req articles).length = articles.length ∧
    (batch_add_humor key req articles)[i]? = some a := by
  have hstep : humorStep key req a = a := by
    simp only [humorStep]
    split
    · rename_i t1 t2 hT hS
      rcases hmiss with h | h
      · rw [h] at hT
        cases hT
      · rw [h] at hS
        cases hS
    · rfl
  refine ⟨List.length_map _ _, ?_⟩
  rw [batch_add_humor, List.getElem?_map, hi, Option.map_some', hstep]

/-- A record with a `summary` key but no `title` key. -/
def noTitleRec : RawArticle :=
  ⟨none, some "S", none, some "body", some "https://w.example/x"⟩

/-- Witness for C9: a record without a `title` key passes through
`batch_add_humor` unchanged, in position. -/
theorem batch_add_humor_missing_keys_witness :
    (batch_add_humor none failReq [noTitleRec]).length = 1 ∧
    (batch_add_humor none failReq [noTitleRec])[0]? = some noTitleRec :=
  batch_add_humor_missing_keys none failReq [noTitleRec] 0 noTitleRec rfl
    (Or.inl rfl)
